import Mathlib

/-!
# Verification of the rkyv_intern interner core

Shallow embedding of `src/interner.rs` and the `serialize_interned` driver of
`src/lib.rs` (crate `rkyv_intern`), together with proofs about the interning
protocol.

Modelling conventions:
* `usize` is modelled as `Nat` together with explicit `% 2 ^ 64` where the Rust
  code can overflow; a Rust panic (overflow / `unwrap` of `None`) is modelled
  by an operation returning `Option.none`.
* The hashbrown `HashMap` with the raw-entry API is modelled as an association
  list looked up by key equality.  All hashes passed to
  `from_key_hashed_nocheck` in the crate are computed from the key by the map's
  own (deterministic) hasher, so locating an entry by the hash plus key
  equality coincides with locating it by key equality alone.
* The `statistics` cargo feature is off (the default), so `Entry` carries only
  the `pos` field.
* Hash computations are instrumented: the embedding counts, per call, how many
  times the value is run through the hasher, with one count at each source
  location that hashes.
-/

set_option autoImplicit false

namespace RkyvIntern

/-- `usize` is modelled as a 64-bit machine integer. -/
def USIZE_MOD : Nat := 2 ^ 64

/-- `usize::MAX`. -/
def USIZE_MAX : Nat := USIZE_MOD - 1

/-- `NonZeroUsize::new`: `some n` for non-zero `n`, `none` for `0`. -/
def nonZeroUsizeNew (n : Nat) : Option Nat :=
  if n = 0 then none else some n

/-- An entry in the interner (`Entry` in `src/interner.rs`).  `pos` models the
`Option<NonZeroUsize>` field: `some n` stands for a present `NonZeroUsize`
with value `n` (so `n ≠ 0` whenever it was stored by `finish_interning`). -/
structure Entry where
  pos : Option Nat
deriving Repr, DecidableEq

/-- The interner (`Interner<T>` in `src/interner.rs`): its `value_to_pos`
hash map is modelled as an association list from owned keys to entries.
Keys are unique in every state reachable by the crate's operations because
insertion happens only on a lookup miss. -/
structure Interner (T : Type) where
  value_to_pos : List (T × Entry)
deriving Repr, DecidableEq

/-- `Interner::new`. -/
def Interner.new (T : Type) : Interner T := ⟨[]⟩

/-- `Interner::len`: the number of interned values. -/
def Interner.len {T : Type} (i : Interner T) : Nat :=
  i.value_to_pos.length

/-- Lookup of the hash map's raw-entry API
(`raw_entry_mut().from_key_hashed_nocheck(hash, value)`), restricted to the
honest hashes used by the crate: returns the entry of the first pair whose
key equals the probe key. -/
def lookupEntry {T : Type} [DecidableEq T] : List (T × Entry) → T → Option Entry
  | [], _ => none
  | (k, e) :: rest, v => if k = v then some e else lookupEntry rest v

/-- Entry lookup on an interner. -/
def Interner.findEntry {T : Type} [DecidableEq T] (i : Interner T) (v : T) : Option Entry :=
  lookupEntry i.value_to_pos v

/-- In-place update of the located occupied entry's `pos` field
(`*x = Some(..)` in `finish_interning`): replaces the `pos` of the first
pair whose key equals `v`. -/
def setPos {T : Type} [DecidableEq T] : List (T × Entry) → T → Nat → List (T × Entry)
  | [], _, _ => []
  | (k, e) :: rest, v, n =>
    if k = v then (k, ⟨some n⟩) :: rest else (k, e) :: setPos rest v n

/-- `InterningState` from `src/lib.rs`. -/
inductive InterningState (S : Type) where
  | Started : S → InterningState S
  | Pending : InterningState S
  | Finished : Nat → InterningState S
deriving Repr, DecidableEq

/-- Result of `start_interning`: the returned `InterningState`, the interner
after the call, and (instrumentation) the number of times the value was run
through the hasher during the call. -/
structure StartResult (T : Type) where
  result : InterningState (T × Nat)
  interner : Interner T
  hashOps : Nat
deriving Repr, DecidableEq

/-- `Interner::start_interning` (`src/interner.rs` lines 77–101).

* Line 79 computes `hash = hasher.hash_one(value)`: one hash computation.
* On an occupied entry: `Pending` if `pos` is absent, else
  `Finished(pos.get() - 1)`; the interner is unchanged.  Total hash
  computations: 1.
* On a vacant entry: inserts the owned copy with absent `pos` via
  `entry.insert(value.to_owned(), ..)` and returns `Started((value, hash))`.
  hashbrown's `RawVacantEntryMut::insert` (the method called here — not
  `insert_hashed_nocheck`) recomputes the hash of the owned key with
  `make_hash` before inserting, because the raw vacant entry does not retain
  the lookup hash; hence a second hash computation on this path.  Total: 2. -/
def start_interning {T : Type} [DecidableEq T] (hash : T → Nat) (i : Interner T)
    (value : T) : StartResult T :=
  let h := hash value
  match i.findEntry value with
  | some e =>
    match e.pos with
    | none => ⟨.Pending, i, 1⟩
    | some pos => ⟨.Finished (pos - 1), i, 1⟩
  | none => ⟨.Started (value, h), ⟨(value, ⟨none⟩) :: i.value_to_pos⟩, 2⟩

/-- The two error values of `finish_interning` (`src/interner.rs`). -/
inductive FinishError where
  | AlreadyFinished : FinishError
  | NotStarted : FinishError
deriving Repr, DecidableEq

/-- `Interner::finish_interning` (`src/interner.rs` lines 103–116).

The outer `Option` models panics: `none` is the panic of
`NonZeroUsize::new(pos + 1).unwrap()` when `pos = usize::MAX` (in release
mode `pos + 1` wraps to `0` and `NonZeroUsize::new(0)` is `None`; in debug
mode the addition itself panics — either way no value is returned).  `some`
carries the returned `Result` together with the interner after the call. -/
def finish_interning {T : Type} [DecidableEq T] (i : Interner T) (state : T × Nat)
    (pos : Nat) : Option (Except FinishError Unit × Interner T) :=
  match i.findEntry state.1 with
  | some e =>
    match e.pos with
    | some _ => some (.error .AlreadyFinished, i)
    | none =>
      match nonZeroUsizeNew ((pos + 1) % USIZE_MOD) with
      | none => none
      | some n => some (.ok (), ⟨setPos i.value_to_pos state.1 n⟩)
  | none => some (.error .NotStarted, i)

/-- The error of `serialize_interned` (`src/lib.rs`): the interner's own
protocol errors, the cyclic-value error, or a propagated error `E` of the
delegated payload serialization (`value.serialize_unsized(self)`). -/
inductive SerError (E : Type) where
  | Finish : FinishError → SerError E
  | CyclicInternedValueError : SerError E
  | Delegated : E → SerError E
deriving Repr, DecidableEq

/-- The serializer state seen by `serialize_interned`: the interner plus the
state `W` of the external byte writer the delegated serialization writes
through. -/
structure SerState (T W : Type) where
  interner : Interner T
  writer : W
deriving Repr, DecidableEq

/-- Result of one `serialize_interned` call: the returned `Result`, the
serializer state after the call, and (instrumentation) whether the delegated
payload serialization was invoked and whether `finish_interning` was
invoked. -/
structure SerResult (T W E : Type) where
  result : Except (SerError E) Nat
  state : SerState T W
  delegated : Bool
  finished : Bool
deriving Repr

/-- `InterningExt::serialize_interned` (`src/lib.rs` lines 105–123).

`ser` models the delegated `value.serialize_unsized(self)`: from the writer
state it produces either the payload's position together with the new writer
state, or an error (the writer state after a failed delegated serialization
is also returned, since the delegate writes through the serializer as it
goes).  The delegate is external to this core and does not touch the
interner.  The outer `Option` propagates the `finish_interning` panic. -/
def serialize_interned {T W E : Type} [DecidableEq T] (hash : T → Nat)
    (ser : T → W → Except E Nat × W) (s : SerState T W) (value : T) :
    Option (SerResult T W E) :=
  let r := start_interning hash s.interner value
  match r.result with
  | .Started st =>
    match ser value s.writer with
    | (.error e, w) => some ⟨.error (.Delegated e), ⟨r.interner, w⟩, true, false⟩
    | (.ok pos, w) =>
      match finish_interning r.interner st pos with
      | none => none
      | some (.error fe, i2) => some ⟨.error (.Finish fe), ⟨i2, w⟩, true, true⟩
      | some (.ok _, i2) => some ⟨.ok pos, ⟨i2, w⟩, true, true⟩
  | .Pending => some ⟨.error .CyclicInternedValueError, ⟨r.interner, s.writer⟩, false, false⟩
  | .Finished pos => some ⟨.ok pos, ⟨r.interner, s.writer⟩, false, false⟩

/-- One mutating interner operation, for stating properties that hold across
every subsequent use of the interner: a `start_interning` call, or a
`finish_interning` call with an arbitrary state pair and position. -/
inductive Op (T : Type) where
  | start : T → Op T
  | finish : T → Nat → Nat → Op T
deriving Repr, DecidableEq

/-- Apply one operation to an interner; `none` propagates the
`finish_interning` panic. -/
def applyOp {T : Type} [DecidableEq T] (hash : T → Nat) (i : Interner T) :
    Op T → Option (Interner T)
  | .start v => some (start_interning hash i v).interner
  | .finish v h pos =>
    match finish_interning i (v, h) pos with
    | none => none
    | some (_, i2) => some i2

/-- Apply a sequence of operations to an interner. -/
def applyOps {T : Type} [DecidableEq T] (hash : T → Nat) (i : Interner T) :
    List (Op T) → Option (Interner T)
  | [] => some i
  | op :: ops =>
    match applyOp hash i op with
    | none => none
    | some i2 => applyOps hash i2 ops

/-- The record of one `serialize_interned` call in a sequence: the value the
call was made with, the returned `Result`, and whether the delegated payload
serialization was invoked during the call. -/
structure CallRecord (T E : Type) where
  value : T
  result : Except (SerError E) Nat
  delegated : Bool
deriving Repr

/-- Run a sequence of `serialize_interned` calls, one per listed value,
threading the serializer state; `none` propagates a panic of any call. -/
def runSerialize {T W E : Type} [DecidableEq T] (hash : T → Nat)
    (ser : T → W → Except E Nat × W) (s : SerState T W) :
    List T → Option (List (CallRecord T E) × SerState T W)
  | [] => some ([], s)
  | v :: vs =>
    match serialize_interned hash ser s v with
    | none => none
    | some r =>
      match runSerialize hash ser r.state vs with
      | none => none
      | some (tr, sf) => some (⟨v, r.result, r.delegated⟩ :: tr, sf)

/-- How many calls of the trace were made with value `v` and invoked the
delegated payload serialization. -/
def delegatedCountFor {T E : Type} [DecidableEq T] (v : T)
    (tr : List (CallRecord T E)) : Nat :=
  (tr.filter (fun c => decide (c.value = v) && c.delegated)).length

/-- The positions returned by the calls of the trace that were made with
value `v` and returned `Ok`. -/
def okPositionsFor {T E : Type} [DecidableEq T] (v : T)
    (tr : List (CallRecord T E)) : List Nat :=
  tr.filterMap (fun c => if c.value = v then c.result.toOption else none)

section Lemmas

variable {T W E : Type} [DecidableEq T]

@[simp]
theorem lookupEntry_nil (v : T) : lookupEntry [] v = none := rfl

@[simp]
theorem lookupEntry_cons (k : T) (e : Entry) (rest : List (T × Entry)) (v : T) :
    lookupEntry ((k, e) :: rest) v = if k = v then some e else lookupEntry rest v := rfl

theorem setPos_length (l : List (T × Entry)) (v : T) (n : Nat) :
    (setPos l v n).length = l.length := by
  induction l with
  | nil => rfl
  | cons p rest ih =>
    obtain ⟨k, e⟩ := p
    by_cases h : k = v <;> simp [setPos, h, ih]

theorem lookupEntry_setPos_self (l : List (T × Entry)) (v : T) (n : Nat) :
    lookupEntry (setPos l v n) v = (lookupEntry l v).map (fun _ => ⟨some n⟩) := by
  induction l with
  | nil => rfl
  | cons p rest ih =>
    obtain ⟨k, e⟩ := p
    by_cases h : k = v <;> simp [setPos, h, ih]

theorem lookupEntry_setPos_other (l : List (T × Entry)) {u v : T} (h : u ≠ v) (n : Nat) :
    lookupEntry (setPos l u n) v = lookupEntry l v := by
  induction l with
  | nil => rfl
  | cons p rest ih =>
    obtain ⟨k, e⟩ := p
    by_cases hk : k = u
    · subst hk
      simp [setPos, h, ih]
    · by_cases hv : k = v
      · subst hv
        simp [setPos, hk]
      · simp [setPos, hk, hv, ih]

theorem start_of_vacant (hash : T → Nat) {i : Interner T} {v : T}
    (h : i.findEntry v = none) :
    start_interning hash i v
      = ⟨.Started (v, hash v), ⟨(v, ⟨none⟩) :: i.value_to_pos⟩, 2⟩ := by
  simp [start_interning, h]

theorem start_of_pending (hash : T → Nat) {i : Interner T} {v : T}
    (h : i.findEntry v = some ⟨none⟩) :
    start_interning hash i v = ⟨.Pending, i, 1⟩ := by
  simp [start_interning, h]

theorem start_of_finished (hash : T → Nat) {i : Interner T} {v : T} {n : Nat}
    (h : i.findEntry v = some ⟨some n⟩) :
    start_interning hash i v = ⟨.Finished (n - 1), i, 1⟩ := by
  simp [start_interning, h]

theorem finish_of_vacant (st : T × Nat) (pos : Nat) {i : Interner T}
    (h : i.findEntry st.1 = none) :
    finish_interning i st pos = some (.error .NotStarted, i) := by
  simp [finish_interning, h]

theorem finish_of_occupied_finished (st : T × Nat) (pos : Nat) {i : Interner T}
    {m : Nat} (h : i.findEntry st.1 = some ⟨some m⟩) :
    finish_interning i st pos = some (.error .AlreadyFinished, i) := by
  simp [finish_interning, h]

theorem finish_of_pending_ok (st : T × Nat) {i : Interner T} {pos : Nat}
    (h : i.findEntry st.1 = some ⟨none⟩) (hpos : pos < USIZE_MAX) :
    finish_interning i st pos
      = some (.ok (), ⟨setPos i.value_to_pos st.1 (pos + 1)⟩) := by
  have hlt : pos + 1 < USIZE_MOD := by
    have hmm : USIZE_MAX + 1 = USIZE_MOD := by
      norm_num [USIZE_MAX, USIZE_MOD]
    omega
  have hmod : (pos + 1) % USIZE_MOD = pos + 1 := Nat.mod_eq_of_lt hlt
  simp [finish_interning, h, hmod, nonZeroUsizeNew]

theorem finish_of_pending_panic (st : T × Nat) {i : Interner T}
    (h : i.findEntry st.1 = some ⟨none⟩) :
    finish_interning i st USIZE_MAX = none := by
  have hmod : (USIZE_MAX + 1) % USIZE_MOD = 0 := by
    have : USIZE_MAX + 1 = USIZE_MOD := by
      simp [USIZE_MAX, USIZE_MOD]
    simp [this]
  simp [finish_interning, h, hmod, nonZeroUsizeNew]

theorem finish_of_pending_zero (st : T × Nat) {i : Interner T} {pos : Nat}
    (h : i.findEntry st.1 = some ⟨none⟩)
    (hz : nonZeroUsizeNew ((pos + 1) % USIZE_MOD) = none) :
    finish_interning i st pos = none := by
  simp [finish_interning, h, hz]

theorem finish_of_pending_some (st : T × Nat) {i : Interner T} {pos m : Nat}
    (h : i.findEntry st.1 = some ⟨none⟩)
    (hz : nonZeroUsizeNew ((pos + 1) % USIZE_MOD) = some m) :
    finish_interning i st pos = some (.ok (), ⟨setPos i.value_to_pos st.1 m⟩) := by
  simp [finish_interning, h, hz]

theorem findEntry_start_other (hash : T → Nat) {i : Interner T} {u v : T}
    (h : u ≠ v) :
    ((start_interning hash i u).interner).findEntry v = i.findEntry v := by
  rcases hfind : i.findEntry u with _ | ⟨_ | n⟩
  · simp [start_of_vacant hash hfind, Interner.findEntry, h]
  · simp [start_of_pending hash hfind]
  · simp [start_of_finished hash hfind]

theorem findEntry_start_self (hash : T → Nat) {i : Interner T} {v : T}
    (h : i.findEntry v = none) :
    ((start_interning hash i v).interner).findEntry v = some ⟨none⟩ := by
  simp [start_of_vacant hash h, Interner.findEntry]

theorem findEntry_finish_other {i i2 : Interner T} {st : T × Nat}
    {pos : Nat} {v : T} {r : Except FinishError Unit} (h : st.1 ≠ v)
    (hf : finish_interning i st pos = some (r, i2)) :
    i2.findEntry v = i.findEntry v := by
  rcases hfind : i.findEntry st.1 with _ | ⟨_ | m⟩
  · rw [finish_of_vacant st pos hfind] at hf
    obtain ⟨rfl, rfl⟩ : Except.error FinishError.NotStarted = r ∧ i = i2 := by
      simpa using hf
    rfl
  · rcases hz : nonZeroUsizeNew ((pos + 1) % USIZE_MOD) with _ | n
    · rw [finish_of_pending_zero st hfind hz] at hf
      exact absurd hf (by simp)
    · rw [finish_of_pending_some st hfind hz] at hf
      obtain ⟨rfl, rfl⟩ :
          Except.ok () = r ∧ (⟨setPos i.value_to_pos st.1 n⟩ : Interner T) = i2 := by
        simpa using hf
      simpa [Interner.findEntry] using lookupEntry_setPos_other i.value_to_pos h n
  · rw [finish_of_occupied_finished st pos hfind] at hf
    obtain ⟨rfl, rfl⟩ : Except.error FinishError.AlreadyFinished = r ∧ i = i2 := by
      simpa using hf
    rfl

theorem applyOp_finished_frozen (hash : T → Nat) {i i2 : Interner T}
    {op : Op T} (v : T) (n : Nat) (ha : applyOp hash i op = some i2)
    (h : i.findEntry v = some ⟨some n⟩) :
    i2.findEntry v = some ⟨some n⟩ := by
  cases op with
  | start u =>
    simp only [applyOp, Option.some_inj] at ha
    by_cases huv : u = v
    · subst huv
      rw [start_of_finished hash h] at ha
      rw [← ha]
      exact h
    · rw [← ha, findEntry_start_other hash huv, h]
  | finish u hh pos =>
    by_cases huv : u = v
    · subst huv
      have hf := finish_of_occupied_finished (u, hh) pos h
      simp only [applyOp, hf, Option.some_inj] at ha
      rw [← ha]
      exact h
    · rcases hf : finish_interning i (u, hh) pos with _ | ⟨r, i3⟩
      · simp [applyOp, hf] at ha
      · simp only [applyOp, hf, Option.some_inj] at ha
        rw [← ha, findEntry_finish_other huv hf, h]

theorem applyOp_entry_persists (hash : T → Nat) {i i2 : Interner T}
    {op : Op T} (v : T) {e : Entry} (ha : applyOp hash i op = some i2)
    (h : i.findEntry v = some e) :
    ∃ e2, i2.findEntry v = some e2 := by
  cases op with
  | start u =>
    simp only [applyOp, Option.some_inj] at ha
    by_cases huv : u = v
    · subst huv
      rcases e with ⟨_ | n⟩
      · rw [start_of_pending hash h] at ha
        obtain rfl : i = i2 := ha
        exact ⟨_, h⟩
      · rw [start_of_finished hash h] at ha
        obtain rfl : i = i2 := ha
        exact ⟨_, h⟩
    · rw [← ha, findEntry_start_other hash huv]
      exact ⟨e, h⟩
  | finish u hh pos =>
    by_cases huv : u = v
    · subst huv
      rcases e with ⟨_ | n⟩
      · rcases hz : nonZeroUsizeNew ((pos + 1) % USIZE_MOD) with _ | m
        · have hf := finish_of_pending_zero (u, hh) h hz
          simp [applyOp, hf] at ha
        · have hf := finish_of_pending_some (u, hh) h hz
          simp only [applyOp, hf, Option.some_inj] at ha
          refine ⟨⟨some m⟩, ?_⟩
          rw [← ha]
          show lookupEntry (setPos i.value_to_pos u m) u = some ⟨some m⟩
          rw [lookupEntry_setPos_self]
          rw [show lookupEntry i.value_to_pos u = some ⟨none⟩ from h]
          rfl
      · have hf := finish_of_occupied_finished (u, hh) pos h
        simp only [applyOp, hf, Option.some_inj] at ha
        obtain rfl : i = i2 := ha
        exact ⟨_, h⟩
    · rcases hf : finish_interning i (u, hh) pos with _ | ⟨r, i3⟩
      · simp [applyOp, hf] at ha
      · simp only [applyOp, hf, Option.some_inj] at ha
        rw [← ha, findEntry_finish_other huv hf]
        exact ⟨e, h⟩

theorem applyOp_created_absent (hash : T → Nat) {i i2 : Interner T}
    {op : Op T} (v : T) (ha : applyOp hash i op = some i2)
    (h : i.findEntry v = none) :
    i2.findEntry v = none ∨ i2.findEntry v = some ⟨none⟩ := by
  cases op with
  | start u =>
    simp only [applyOp, Option.some_inj] at ha
    by_cases huv : u = v
    · subst huv
      right
      rw [← ha]
      exact findEntry_start_self hash h
    · left
      rw [← ha, findEntry_start_other hash huv]
      exact h
  | finish u hh pos =>
    by_cases huv : u = v
    · subst huv
      have hf := finish_of_vacant (u, hh) pos h
      simp only [applyOp, hf, Option.some_inj] at ha
      left
      rw [← ha]
      exact h
    · rcases hf : finish_interning i (u, hh) pos with _ | ⟨r, i3⟩
      · simp [applyOp, hf] at ha
      · simp only [applyOp, hf, Option.some_inj] at ha
        left
        rw [← ha, findEntry_finish_other huv hf]
        exact h

theorem applyOp_len_mono (hash : T → Nat) {i i2 : Interner T} {op : Op T}
    (ha : applyOp hash i op = some i2) : i.len ≤ i2.len := by
  cases op with
  | start u =>
    simp only [applyOp, Option.some_inj] at ha
    rcases hfind : i.findEntry u with _ | ⟨_ | n⟩
    · rw [start_of_vacant hash hfind] at ha
      rw [← ha]
      simp [Interner.len]
    · rw [start_of_pending hash hfind] at ha
      rw [← ha]
    · rw [start_of_finished hash hfind] at ha
      rw [← ha]
  | finish u hh pos =>
    rcases hfind : i.findEntry u with _ | ⟨_ | n⟩
    · have hf := finish_of_vacant (u, hh) pos hfind
      simp only [applyOp, hf, Option.some_inj] at ha
      rw [← ha]
    · rcases hz : nonZeroUsizeNew ((pos + 1) % USIZE_MOD) with _ | m
      · have hf := finish_of_pending_zero (u, hh) hfind hz
        simp [applyOp, hf] at ha
      · have hf := finish_of_pending_some (u, hh) hfind hz
        simp only [applyOp, hf, Option.some_inj] at ha
        rw [← ha]
        simp [Interner.len, setPos_length]
    · have hf := finish_of_occupied_finished (u, hh) pos hfind
      simp only [applyOp, hf, Option.some_inj] at ha
      rw [← ha]

theorem applyOps_finished_frozen (hash : T → Nat) (v : T) (n : Nat) :
    ∀ (ops : List (Op T)) (i i2 : Interner T),
      applyOps hash i ops = some i2 → i.findEntry v = some ⟨some n⟩ →
      i2.findEntry v = some ⟨some n⟩ := by
  intro ops
  induction ops with
  | nil =>
    intro i i2 ha h
    obtain rfl : i = i2 := by simpa [applyOps] using ha
    exact h
  | cons op ops ih =>
    intro i i2 ha h
    rcases hstep : applyOp hash i op with _ | i1
    · simp [applyOps, hstep] at ha
    · simp only [applyOps, hstep] at ha
      exact ih i1 i2 ha (applyOp_finished_frozen hash v n hstep h)

theorem applyOps_entry_persists (hash : T → Nat) (v : T) :
    ∀ (ops : List (Op T)) (i i2 : Interner T) (e : Entry),
      applyOps hash i ops = some i2 → i.findEntry v = some e →
      ∃ e2, i2.findEntry v = some e2 := by
  intro ops
  induction ops with
  | nil =>
    intro i i2 e ha h
    obtain rfl : i = i2 := by simpa [applyOps] using ha
    exact ⟨e, h⟩
  | cons op ops ih =>
    intro i i2 e ha h
    rcases hstep : applyOp hash i op with _ | i1
    · simp [applyOps, hstep] at ha
    · simp only [applyOps, hstep] at ha
      obtain ⟨e1, he1⟩ := applyOp_entry_persists hash v hstep h
      exact ih i1 i2 e1 ha he1

theorem applyOps_len_mono (hash : T → Nat) :
    ∀ (ops : List (Op T)) (i i2 : Interner T),
      applyOps hash i ops = some i2 → i.len ≤ i2.len := by
  intro ops
  induction ops with
  | nil =>
    intro i i2 ha
    obtain rfl : i = i2 := by simpa [applyOps] using ha
    exact le_rfl
  | cons op ops ih =>
    intro i i2 ha
    rcases hstep : applyOp hash i op with _ | i1
    · simp [applyOps, hstep] at ha
    · simp only [applyOps, hstep] at ha
      exact le_trans (applyOp_len_mono hash hstep) (ih i1 i2 ha)

theorem serialize_step_pending (hash : T → Nat) (ser : T → W → Except E Nat × W)
    {s : SerState T W} {v : T} (h : s.interner.findEntry v = some ⟨none⟩) :
    serialize_interned hash ser s v
      = some ⟨.error .CyclicInternedValueError, s, false, false⟩ := by
  obtain ⟨i, w⟩ := s
  simp [serialize_interned, start_of_pending hash h]

theorem serialize_step_finished (hash : T → Nat) (ser : T → W → Except E Nat × W)
    {s : SerState T W} {v : T} {n : Nat} (h : s.interner.findEntry v = some ⟨some n⟩) :
    serialize_interned hash ser s v = some ⟨.ok (n - 1), s, false, false⟩ := by
  obtain ⟨i, w⟩ := s
  simp [serialize_interned, start_of_finished hash h]

theorem serialize_step_vacant_err (hash : T → Nat) (ser : T → W → Except E Nat × W)
    {s : SerState T W} {v : T} {e : E} {w : W}
    (h : s.interner.findEntry v = none) (hdel : ser v s.writer = (.error e, w)) :
    serialize_interned hash ser s v
      = some ⟨.error (.Delegated e), ⟨⟨(v, ⟨none⟩) :: s.interner.value_to_pos⟩, w⟩,
          true, false⟩ := by
  simp [serialize_interned, start_of_vacant hash h, hdel]

theorem serialize_step_vacant_ok (hash : T → Nat) (ser : T → W → Except E Nat × W)
    {s : SerState T W} {v : T} {pos : Nat} {w : W} {r : SerResult T W E}
    (h : s.interner.findEntry v = none) (hdel : ser v s.writer = (.ok pos, w))
    (hpos : pos < USIZE_MOD)
    (hres : serialize_interned hash ser s v = some r) :
    r = ⟨.ok pos,
          ⟨⟨(v, ⟨some (pos + 1)⟩) :: s.interner.value_to_pos⟩, w⟩, true, true⟩ := by
  have hmm : USIZE_MAX + 1 = USIZE_MOD := by
    norm_num [USIZE_MAX, USIZE_MOD]
  have hpend : (⟨(v, ⟨none⟩) :: s.interner.value_to_pos⟩ : Interner T).findEntry v
      = some ⟨none⟩ := by
    simp [Interner.findEntry]
  by_cases hmax : pos = USIZE_MAX
  · exfalso
    subst hmax
    have hnone : serialize_interned hash ser s v = none := by
      simp [serialize_interned, start_of_vacant hash h, hdel,
        finish_of_pending_panic (v, hash v) hpend]
    rw [hnone] at hres
    exact Option.noConfusion hres
  · have hlt : pos < USIZE_MAX := by
      omega
    have hfin := finish_of_pending_ok (v, hash v) hpend hlt
    have heq : serialize_interned hash ser s v
        = some ⟨.ok pos,
            ⟨⟨(v, ⟨some (pos + 1)⟩) :: s.interner.value_to_pos⟩, w⟩, true, true⟩ := by
      simp [serialize_interned, start_of_vacant hash h, hdel, hfin, setPos]
    rw [heq] at hres
    exact (Option.some_inj.mp hres).symm

theorem serialize_step_frame (hash : T → Nat) (ser : T → W → Except E Nat × W)
    {s : SerState T W} {u v : T} {r : SerResult T W E} (huv : u ≠ v)
    (hres : serialize_interned hash ser s u = some r) :
    r.state.interner.findEntry v = s.interner.findEntry v := by
  rcases hfind : s.interner.findEntry u with _ | ⟨_ | n⟩
  · rcases hdel : ser u s.writer with ⟨res, w⟩
    rcases res with e | pos
    · rw [serialize_step_vacant_err hash ser hfind hdel] at hres
      obtain rfl := Option.some_inj.mp hres.symm
      simp [Interner.findEntry, huv]
    · rcases hz : nonZeroUsizeNew ((pos + 1) % USIZE_MOD) with _ | m
      · exfalso
        have hpend : (⟨(u, ⟨none⟩) :: s.interner.value_to_pos⟩ : Interner T).findEntry u
            = some ⟨none⟩ := by
          simp [Interner.findEntry]
        have hfin := finish_of_pending_zero (u, hash u) hpend hz
        have hnone : serialize_interned hash ser s u = none := by
          simp [serialize_interned, start_of_vacant hash hfind, hdel, hfin]
        rw [hnone] at hres
        exact Option.noConfusion hres
      · have hpend : (⟨(u, ⟨none⟩) :: s.interner.value_to_pos⟩ : Interner T).findEntry u
            = some ⟨none⟩ := by
          simp [Interner.findEntry]
        have hfin := finish_of_pending_some (u, hash u) hpend hz
        have heq : serialize_interned hash ser s u
            = some ⟨.ok pos,
                ⟨⟨(u, ⟨some m⟩) :: s.interner.value_to_pos⟩, w⟩, true, true⟩ := by
          simp [serialize_interned, start_of_vacant hash hfind, hdel, hfin, setPos]
        rw [heq] at hres
        obtain rfl := Option.some_inj.mp hres.symm
        simp [Interner.findEntry, huv]
  · rw [serialize_step_pending hash ser hfind] at hres
    obtain rfl := Option.some_inj.mp hres.symm
    rfl
  · rw [serialize_step_finished hash ser hfind] at hres
    obtain rfl := Option.some_inj.mp hres.symm
    rfl

@[simp]
theorem delegatedCountFor_nil (v : T) : delegatedCountFor v ([] : List (CallRecord T E)) = 0 := rfl

@[simp]
theorem delegatedCountFor_cons (v : T) (c : CallRecord T E) (tr : List (CallRecord T E)) :
    delegatedCountFor v (c :: tr)
      = (if c.value = v ∧ c.delegated = true then 1 else 0) + delegatedCountFor v tr := by
  by_cases h1 : c.value = v <;> by_cases h2 : c.delegated = true <;>
    simp [delegatedCountFor, List.filter, h1, h2, Nat.add_comm]

@[simp]
theorem okPositionsFor_nil (v : T) : okPositionsFor v ([] : List (CallRecord T E)) = [] := rfl

@[simp]
theorem okPositionsFor_cons (v : T) (c : CallRecord T E) (tr : List (CallRecord T E)) :
    okPositionsFor v (c :: tr)
      = (if c.value = v then c.result.toOption.toList else []) ++ okPositionsFor v tr := by
  by_cases h1 : c.value = v
  · rcases hr : c.result with e | p <;>
      simp [okPositionsFor, List.filterMap, h1, hr, Except.toOption]
  · simp [okPositionsFor, List.filterMap, h1]

/-- The dedup invariant of a run of `serialize_interned` calls, keyed by the
starting interner's entry for the probe value `v`:
* entry absent: the delegated serialization for `v` runs exactly once over the
  run if `v` ever occurs, namely on the first call with value `v`, and all
  `Ok`-returning calls for `v` agree on the position;
* entry pending: the delegated serialization for `v` never runs and no call
  for `v` returns `Ok`;
* entry finished at stored marker `n`: the delegated serialization for `v`
  never runs and every `Ok`-returning call for `v` returns `n - 1`. -/
theorem runSerialize_invariant (hash : T → Nat) (ser : T → W → Except E Nat × W)
    (v : T)
    (hser : ∀ u w pos w2, ser u w = (.ok pos, w2) → pos < USIZE_MOD) :
    ∀ (vs : List T) (s : SerState T W) (tr : List (CallRecord T E)) (sf : SerState T W),
      runSerialize hash ser s vs = some (tr, sf) →
      ((s.interner.findEntry v = none →
          delegatedCountFor v tr = (if v ∈ vs then 1 else 0) ∧
          (∀ c, tr.find? (fun c => decide (c.value = v)) = some c → c.delegated = true) ∧
          (∀ p ∈ okPositionsFor v tr, ∀ q ∈ okPositionsFor v tr, p = q)) ∧
       (s.interner.findEntry v = some ⟨none⟩ →
          delegatedCountFor v tr = 0 ∧ okPositionsFor v tr = []) ∧
       (∀ n, s.interner.findEntry v = some ⟨some n⟩ →
          delegatedCountFor v tr = 0 ∧ ∀ p ∈ okPositionsFor v tr, p = n - 1)) := by
  intro vs
  induction vs with
  | nil =>
    intro s tr sf hrun
    obtain ⟨rfl, rfl⟩ : ([] : List (CallRecord T E)) = tr ∧ s = sf := by
      simpa [runSerialize] using hrun
    refine ⟨fun _ => ?_, fun _ => by simp, fun n _ => by simp⟩
    simp
  | cons u vs ih =>
    intro s tr sf hrun
    rcases hcall : serialize_interned hash ser s u with _ | r
    · simp only [runSerialize, hcall] at hrun
      exact Option.noConfusion hrun
    · simp only [runSerialize, hcall] at hrun
      rcases hrest : runSerialize hash ser r.state vs with _ | ⟨tr2, sf2⟩
      · simp only [hrest] at hrun
        exact Option.noConfusion hrun
      · simp only [hrest] at hrun
        obtain ⟨rfl, rfl⟩ :
            (⟨u, r.result, r.delegated⟩ : CallRecord T E) :: tr2 = tr ∧ sf2 = sf := by
          simpa using hrun
        have IH := ih r.state tr2 sf2 hrest
        by_cases huv : u = v
        · subst huv
          refine ⟨?_, ?_, ?_⟩
          · intro hnone
            rcases hdel : ser u s.writer with ⟨res, w⟩
            rcases res with e | pos
            · rw [serialize_step_vacant_err hash ser hnone hdel] at hcall
              obtain rfl := Option.some_inj.mp hcall.symm
              have hp : (⟨(u, ⟨none⟩) :: s.interner.value_to_pos⟩ : Interner T).findEntry u
                  = some ⟨none⟩ := by
                simp [Interner.findEntry]
              obtain ⟨hc2, ho2⟩ := (IH.2.1) hp
              refine ⟨?_, ?_, ?_⟩
              · simp [hc2]
              · intro c hc
                rw [List.find?_cons_of_pos _ (by simp)] at hc
                obtain rfl := Option.some_inj.mp hc.symm
                rfl
              · simp [ho2, Except.toOption]
            · have hpos := hser u s.writer pos w hdel
              have hr := serialize_step_vacant_ok hash ser hnone hdel hpos hcall
              subst hr
              have hp : (⟨(u, ⟨some (pos + 1)⟩) :: s.interner.value_to_pos⟩ : Interner T).findEntry u
                  = some ⟨some (pos + 1)⟩ := by
                simp [Interner.findEntry]
              obtain ⟨hc2, ho2⟩ := (IH.2.2) (pos + 1) hp
              refine ⟨?_, ?_, ?_⟩
              · simp [hc2]
              · intro c hc
                rw [List.find?_cons_of_pos _ (by simp)] at hc
                obtain rfl := Option.some_inj.mp hc.symm
                rfl
              · have hall : ∀ x ∈ okPositionsFor u
                    ((⟨u, Except.ok pos, true⟩ : CallRecord T E) :: tr2), x = pos := by
                  intro x hx
                  simp [Except.toOption] at hx
                  rcases hx with rfl | hx2
                  · rfl
                  · simpa using ho2 x hx2
                intro p hp2 q hq2
                rw [hall p hp2, hall q hq2]
          · intro hpend
            rw [serialize_step_pending hash ser hpend] at hcall
            obtain rfl := Option.some_inj.mp hcall.symm
            obtain ⟨hc2, ho2⟩ := (IH.2.1) hpend
            constructor
            · simp [hc2]
            · simp [ho2, Except.toOption]
          · intro n hfin
            rw [serialize_step_finished hash ser hfin] at hcall
            obtain rfl := Option.some_inj.mp hcall.symm
            obtain ⟨hc2, ho2⟩ := (IH.2.2) n hfin
            constructor
            · simp [hc2]
            · intro p hp2
              simp [Except.toOption] at hp2
              rcases hp2 with rfl | hp3
              · rfl
              · exact ho2 p hp3
        · have hframe := serialize_step_frame hash ser (v := v) huv hcall
          have hhead : (⟨u, r.result, r.delegated⟩ : CallRecord T E).value ≠ v := huv
          have hmem : (v ∈ u :: vs) = (v ∈ vs) := by
            have hvu : v ≠ u := fun h => huv h.symm
            simp [List.mem_cons, hvu]
          refine ⟨?_, ?_, ?_⟩
          · intro hnone
            rw [← hframe] at hnone
            obtain ⟨hc2, hf2, ho2⟩ := IH.1 hnone
            refine ⟨?_, ?_, ?_⟩
            · simp [huv, hc2, hmem]
            · intro c hc
              rw [List.find?_cons_of_neg _ (by simpa using hhead)] at hc
              exact hf2 c hc
            · simpa [huv] using ho2
          · intro hpend
            rw [← hframe] at hpend
            obtain ⟨hc2, ho2⟩ := IH.2.1 hpend
            constructor
            · simp [huv, hc2]
            · simp [huv, ho2]
          · intro n hfin
            rw [← hframe] at hfin
            obtain ⟨hc2, ho2⟩ := IH.2.2 n hfin
            constructor
            · simp [huv, hc2]
            · simpa [huv] using ho2

end Lemmas

section Claims

variable {T W E : Type} [DecidableEq T]

/-- C5 counterexample: in `start_interning` on a value the interner has never
seen (outcome `Started`), the value is hashed twice — once by `hash_one` for
the lookup and once more inside hashbrown's `RawVacantEntryMut::insert`,
which the source calls without passing the precomputed hash — refuting
"hashed exactly once regardless of outcome" at this input. -/
theorem c5_counterexample :
    (start_interning (fun n => n) (Interner.new Nat) 0).hashOps ≠ 1 := by
  decide

/-- C5 (amended): in every call to `start_interning(value)`, the hash of the
value is computed once and used for the lookup; on the `Pending` and
`Finished` outcomes that is the only hash computation, but on a lookup miss
(outcome `Started`) the insertion of the owned copy computes a second hash
of the key instead of reusing the precomputed one, so the value is hashed
twice. -/
theorem c5_hash_count (hash : T → Nat) (i : Interner T) (v : T) :
    (start_interning hash i v).hashOps = (if i.findEntry v = none then 2 else 1) := by
  rcases h : i.findEntry v with _ | e
  · rw [start_of_vacant hash h]
    simp
  · rcases e with ⟨_ | n⟩
    · rw [start_of_pending hash h]
      simp [h]
    · rw [start_of_finished hash h]
      simp [h]

/-- C9: `finish_interning(state, pos)` returns a `Result` on every interner
and state whenever `pos < usize::MAX`; at `pos = usize::MAX` it panics
(models `NonZeroUsize::new(pos + 1).unwrap()`) on exactly the states where
it would otherwise succeed, namely when the located entry has an absent
position — so totality holds only under the precondition
`pos < usize::MAX`, even though the spec admits any non-negative position. -/
theorem c9_finish_totality :
    (∀ (i : Interner T) (st : T × Nat) (pos : Nat), pos < USIZE_MAX →
        ∃ r, finish_interning i st pos = some r) ∧
    (∀ (i : Interner T) (st : T × Nat), i.findEntry st.1 = some ⟨none⟩ →
        finish_interning i st USIZE_MAX = none) := by
  constructor
  · intro i st pos hpos
    rcases h : i.findEntry st.1 with _ | ⟨_ | m⟩
    · exact ⟨_, finish_of_vacant st pos h⟩
    · exact ⟨_, finish_of_pending_ok st h hpos⟩
    · exact ⟨_, finish_of_occupied_finished st pos h⟩
  · intro i st h
    exact finish_of_pending_panic st h

/-- C9 witness: totality at `pos = 3` on the empty interner, and the panic at
`pos = usize::MAX` on an interner holding a started-but-unfinished entry. -/
theorem c9_finish_totality_witness :
    3 < USIZE_MAX ∧
    (∃ r, finish_interning (Interner.new Nat) (0, 0) 3 = some r) ∧
    (⟨[(0, ⟨none⟩)]⟩ : Interner Nat).findEntry 0 = some ⟨none⟩ ∧
    finish_interning (⟨[(0, ⟨none⟩)]⟩ : Interner Nat) (0, 0) USIZE_MAX = none :=
  ⟨by decide, (c9_finish_totality (T := Nat)).1 (Interner.new Nat) (0, 0) 3 (by decide),
   by rfl, (c9_finish_totality (T := Nat)).2 ⟨[(0, ⟨none⟩)]⟩ (0, 0) (by rfl)⟩

/-- C10: whenever `finish_interning` returns an error (`AlreadyFinished` or
`NotStarted`), the interner is completely unchanged. -/
theorem c10_finish_error_no_mutation (i i2 : Interner T) (st : T × Nat)
    (pos : Nat) (e : FinishError)
    (h : finish_interning i st pos = some (.error e, i2)) : i2 = i := by
  rcases hf : i.findEntry st.1 with _ | ⟨_ | m⟩
  · rw [finish_of_vacant st pos hf] at h
    simp at h
    exact h.2.symm
  · rcases hz : nonZeroUsizeNew ((pos + 1) % USIZE_MOD) with _ | m2
    · rw [finish_of_pending_zero st hf hz] at h
      exact Option.noConfusion h
    · rw [finish_of_pending_some st hf hz] at h
      simp at h
  · rw [finish_of_occupied_finished st pos hf] at h
    simp at h
    exact h.2.symm

/-- C10 witness: a failing `finish_interning` (both error kinds) leaves the
concrete interner exactly as it was. -/
theorem c10_finish_error_no_mutation_witness :
    (⟨[(0, ⟨some 1⟩)]⟩ : Interner Nat) = ⟨[(0, ⟨some 1⟩)]⟩ ∧
    (Interner.new Nat) = Interner.new Nat :=
  ⟨c10_finish_error_no_mutation ⟨[(0, ⟨some 1⟩)]⟩ ⟨[(0, ⟨some 1⟩)]⟩ (0, 0) 5
      .AlreadyFinished (by rfl),
   c10_finish_error_no_mutation (Interner.new Nat) (Interner.new Nat) (0, 0) 5
      .NotStarted (by rfl)⟩

/-- C4 counterexample: with an entry located by the state in the
started-but-unfinished condition (the "otherwise" arm of the claim, which
demands `Ok`), `finish_interning` at `pos = usize::MAX` panics — it returns
no `Result` at all — so the claim's third arm is false at this input. -/
theorem c4_counterexample :
    finish_interning (⟨[(0, ⟨none⟩)]⟩ : Interner Nat) (0, 0) USIZE_MAX = none :=
  finish_of_pending_panic (0, 0) (by rfl)

/-- C4 (amended): `finish_interning(state, pos)` fails with `AlreadyFinished`
whenever the entry located by the state has a present position, fails with
`NotStarted` whenever no entry is found, and otherwise — provided
`pos < usize::MAX`, since at `pos = usize::MAX` it panics instead — returns
`Ok` and puts the entry in the `Finished` state for all subsequent
`start_interning` calls on an equal value. -/
theorem c4_finish_protocol (hash : T → Nat) (i : Interner T) (st : T × Nat)
    (pos : Nat) :
    (∀ m, i.findEntry st.1 = some ⟨some m⟩ →
        finish_interning i st pos = some (.error .AlreadyFinished, i)) ∧
    (i.findEntry st.1 = none →
        finish_interning i st pos = some (.error .NotStarted, i)) ∧
    (i.findEntry st.1 = some ⟨none⟩ → pos < USIZE_MAX →
        ∃ i2, finish_interning i st pos = some (.ok (), i2) ∧
          ∀ ops i3, applyOps hash i2 ops = some i3 →
            (start_interning hash i3 st.1).result = .Finished pos) := by
  refine ⟨fun m hm => finish_of_occupied_finished st pos hm, fun h => finish_of_vacant st pos h, ?_⟩
  intro hp hlt
  refine ⟨⟨setPos i.value_to_pos st.1 (pos + 1)⟩, finish_of_pending_ok st hp hlt, ?_⟩
  intro ops i3 hops
  have h2 : (⟨setPos i.value_to_pos st.1 (pos + 1)⟩ : Interner T).findEntry st.1
      = some ⟨some (pos + 1)⟩ := by
    show lookupEntry (setPos i.value_to_pos st.1 (pos + 1)) st.1 = some ⟨some (pos + 1)⟩
    rw [lookupEntry_setPos_self,
      show lookupEntry i.value_to_pos st.1 = some ⟨none⟩ from hp]
    rfl
  have h3 := applyOps_finished_frozen hash st.1 (pos + 1) ops _ i3 hops h2
  rw [start_of_finished hash h3]
  simp

/-- C4 witness: the three arms at concrete inputs — `AlreadyFinished` on a
finished entry, `NotStarted` on an empty interner, and the `Ok` arm at
`pos = 7` followed by two further operations after which `start_interning`
reports `Finished 7`. -/
theorem c4_finish_protocol_witness :
    finish_interning (⟨[(0, ⟨some 1⟩)]⟩ : Interner Nat) (0, 0) 7
        = some (.error .AlreadyFinished, ⟨[(0, ⟨some 1⟩)]⟩) ∧
    finish_interning (Interner.new Nat) (0, 0) 7
        = some (.error .NotStarted, Interner.new Nat) ∧
    (∃ i2, finish_interning (⟨[(0, ⟨none⟩)]⟩ : Interner Nat) (0, 0) 7
        = some (.ok (), i2) ∧
      ∀ ops i3, applyOps (fun n => n) i2 ops = some i3 →
        (start_interning (fun n => n) i3 0).result = .Finished 7) :=
  ⟨(c4_finish_protocol (fun n => n) ⟨[(0, ⟨some 1⟩)]⟩ (0, 0) 7).1 1 (by rfl),
   (c4_finish_protocol (fun n => n) (Interner.new Nat) (0, 0) 7).2.1 (by rfl),
   (c4_finish_protocol (fun n => n) ⟨[(0, ⟨none⟩)]⟩ (0, 0) 7).2.2 (by rfl) (by decide)⟩

/-- C2: for every value `v` and every position `p ≤ usize::MAX` (including
`p = 0`), the first `start_interning(v)` on an interner that has never seen
an equal value returns `Started` carrying the value and its hash; and once
the matching `finish_interning(state, p)` succeeds, every subsequent
`start_interning` with an equal value — after any further sequence of
interner operations — returns `Finished(p)`: the internal one-based encoding
is externally observable as exactly `p`. -/
theorem c2_first_start_then_finished (hash : T → Nat) (i : Interner T) (v : T)
    (p : Nat) (hnew : i.findEntry v = none) (hp : p ≤ USIZE_MAX) :
    (start_interning hash i v).result = .Started (v, hash v) ∧
    ∀ i2, finish_interning (start_interning hash i v).interner (v, hash v) p
        = some (.ok (), i2) →
      ∀ ops i3, applyOps hash i2 ops = some i3 →
        (start_interning hash i3 v).result = .Finished p := by
  constructor
  · rw [start_of_vacant hash hnew]
  · intro i2 hfin ops i3 hops
    have hp1 : ((start_interning hash i v).interner).findEntry v = some ⟨none⟩ :=
      findEntry_start_self hash hnew
    by_cases hmax : p = USIZE_MAX
    · subst hmax
      rw [finish_of_pending_panic (v, hash v) hp1] at hfin
      exact Option.noConfusion hfin
    · have hlt : p < USIZE_MAX := lt_of_le_of_ne hp hmax
      rw [finish_of_pending_ok (v, hash v) hp1 hlt] at hfin
      obtain rfl :
          (⟨setPos ((start_interning hash i v).interner).value_to_pos v (p + 1)⟩ :
              Interner T) = i2 := by
        simpa using hfin
      have h2 : (⟨setPos ((start_interning hash i v).interner).value_to_pos v (p + 1)⟩ :
          Interner T).findEntry v = some ⟨some (p + 1)⟩ := by
        show lookupEntry
            (setPos ((start_interning hash i v).interner).value_to_pos v (p + 1)) v
          = some ⟨some (p + 1)⟩
        rw [lookupEntry_setPos_self,
          show lookupEntry ((start_interning hash i v).interner).value_to_pos v
              = some ⟨none⟩ from hp1]
        rfl
      have h3 := applyOps_finished_frozen hash v (p + 1) ops _ i3 hops h2
      rw [start_of_finished hash h3]
      simp

/-- C2 witness: value `0`, position `p = 0`, on the empty interner; after two
further operations the entry still reports `Finished 0`. -/
theorem c2_first_start_then_finished_witness :
    (Interner.new Nat).findEntry 0 = none ∧ 0 ≤ USIZE_MAX ∧
    (start_interning (fun n => n) (Interner.new Nat) 0).result = .Started (0, 0) ∧
    (start_interning (fun n => n)
        (⟨[(1, ⟨none⟩), (0, ⟨some 1⟩)]⟩ : Interner Nat) 0).result = .Finished 0 :=
  ⟨rfl, by decide,
   (c2_first_start_then_finished (fun n => n) (Interner.new Nat) 0 0 rfl (by decide)).1,
   (c2_first_start_then_finished (fun n => n) (Interner.new Nat) 0 0 rfl (by decide)).2
     ⟨[(0, ⟨some 1⟩)]⟩ (by rfl) [Op.start 1, Op.start 0]
     ⟨[(1, ⟨none⟩), (0, ⟨some 1⟩)]⟩ (by rfl)⟩

/-- C3: when an entry for an equal value exists with absent position
(started but not finished), a further `start_interning` returns `Pending`
and leaves the interner unchanged (no new entry), and `serialize_interned`
turns that `Pending` outcome into a `CyclicInternedValue` error without
invoking the delegated payload serialization and without touching the
writer. -/
theorem c3_pending_is_cyclic_error (hash : T → Nat)
    (ser : T → W → Except E Nat × W) (i : Interner T) (v : T) (w : W)
    (hpend : i.findEntry v = some ⟨none⟩) :
    start_interning hash i v = ⟨.Pending, i, 1⟩ ∧
    serialize_interned hash ser ⟨i, w⟩ v
      = some ⟨.error .CyclicInternedValueError, ⟨i, w⟩, false, false⟩ :=
  ⟨start_of_pending hash hpend, serialize_step_pending hash ser hpend⟩

/-- C3 witness: a started-but-unfinished entry for `0` yields `Pending` and
the cyclic error on the concrete interner, with nothing modified. -/
theorem c3_pending_is_cyclic_error_witness :
    start_interning (fun n => n) (⟨[(0, ⟨none⟩)]⟩ : Interner Nat) 0
      = ⟨.Pending, ⟨[(0, ⟨none⟩)]⟩, 1⟩ ∧
    serialize_interned (fun n => n) (fun _ _ => ((Except.ok 0 : Except Unit Nat), ()))
        (⟨⟨[(0, ⟨none⟩)]⟩, ()⟩ : SerState Nat Unit) 0
      = some ⟨.error .CyclicInternedValueError, ⟨⟨[(0, ⟨none⟩)]⟩, ()⟩, false, false⟩ :=
  c3_pending_is_cyclic_error (fun n => n) (fun _ _ => ((Except.ok 0 : Except Unit Nat), ()))
    ⟨[(0, ⟨none⟩)]⟩ 0 () (by rfl)

/-- C6: if the delegated payload serialization fails after `start_interning`
returned `Started`, `serialize_interned` propagates exactly that error,
does not invoke `finish_interning` (the `finished` flag is `false`), and the
value's entry remains in the map with an absent position. -/
theorem c6_delegate_error_propagation (hash : T → Nat)
    (ser : T → W → Except E Nat × W) (i : Interner T) (v : T) (w w2 : W) (e : E)
    (hnone : i.findEntry v = none) (hdel : ser v w = (.error e, w2)) :
    serialize_interned hash ser ⟨i, w⟩ v
      = some ⟨.error (.Delegated e), ⟨⟨(v, ⟨none⟩) :: i.value_to_pos⟩, w2⟩,
          true, false⟩ ∧
    (⟨(v, ⟨none⟩) :: i.value_to_pos⟩ : Interner T).findEntry v = some ⟨none⟩ :=
  ⟨serialize_step_vacant_err hash ser hnone hdel, by simp [Interner.findEntry]⟩

/-- C6 witness: a delegate that always fails leaves the fresh entry for `0`
pending, with the error propagated and finish never called. -/
theorem c6_delegate_error_propagation_witness :
    serialize_interned (fun n => n) (fun _ _ => (Except.error (), ()))
        (⟨Interner.new Nat, ()⟩ : SerState Nat Unit) 0
      = some ⟨.error (.Delegated ()), ⟨⟨[(0, ⟨none⟩)]⟩, ()⟩, true, false⟩ ∧
    (⟨[(0, ⟨none⟩)]⟩ : Interner Nat).findEntry 0 = some ⟨none⟩ :=
  c6_delegate_error_propagation (fun n => n) (fun _ _ => (Except.error (), ()))
    (Interner.new Nat) 0 () () () rfl rfl

/-- C7: entries are created with absent position (a single operation on an
interner without an entry for `v` either still has no entry for `v` or has
one with absent position), and a present position is frozen: across any
sequence of operations, an entry holding a present position keeps exactly
that position — so the position transitions from absent to present at most
once in the entry's life. -/
theorem c7_position_set_once (hash : T → Nat) (v : T) :
    (∀ (i i2 : Interner T) (op : Op T), applyOp hash i op = some i2 →
        i.findEntry v = none →
        i2.findEntry v = none ∨ i2.findEntry v = some ⟨none⟩) ∧
    (∀ (i i2 : Interner T) (ops : List (Op T)) (n : Nat),
        applyOps hash i ops = some i2 →
        i.findEntry v = some ⟨some n⟩ → i2.findEntry v = some ⟨some n⟩) :=
  ⟨fun _ _ _ ha h => applyOp_created_absent hash v ha h,
   fun i i2 ops n ha h => applyOps_finished_frozen hash v n ops i i2 ha h⟩

/-- C7 witness: creating the entry for `0` on the empty interner yields an
absent position, and a finished entry at marker `3` survives a start and a
(failing) finish at another position unchanged. -/
theorem c7_position_set_once_witness :
    ((⟨[(0, ⟨none⟩)]⟩ : Interner Nat).findEntry 0 = none ∨
      (⟨[(0, ⟨none⟩)]⟩ : Interner Nat).findEntry 0 = some ⟨none⟩) ∧
    (⟨[(1, ⟨none⟩), (0, ⟨some 3⟩)]⟩ : Interner Nat).findEntry 0 = some ⟨some 3⟩ :=
  ⟨(c7_position_set_once (fun n => n) 0).1 (Interner.new Nat) ⟨[(0, ⟨none⟩)]⟩
      (Op.start 0) (by rfl) rfl,
   (c7_position_set_once (fun n => n) 0).2 ⟨[(0, ⟨some 3⟩)]⟩
      ⟨[(1, ⟨none⟩), (0, ⟨some 3⟩)]⟩ [Op.start 1, Op.finish 0 0 9] 3 (by rfl) (by rfl)⟩

/-- C8: no operation removes an entry — after any sequence of
`start_interning`/`finish_interning` operations, every entry present before
is still present, and the number of interned values never decreases. -/
theorem c8_no_eviction (hash : T → Nat) (ops : List (Op T)) (i i2 : Interner T)
    (ha : applyOps hash i ops = some i2) :
    (∀ v e, i.findEntry v = some e → ∃ e2, i2.findEntry v = some e2) ∧
    i.len ≤ i2.len :=
  ⟨fun v e h => applyOps_entry_persists hash v ops i i2 e ha h,
   applyOps_len_mono hash ops i i2 ha⟩

/-- C8 witness: after a start of a fresh value and a finish of an existing
one, the old entry is still there and the size grew from 1 to 2. -/
theorem c8_no_eviction_witness :
    (∃ e2, (⟨[(1, ⟨some 6⟩), (0, ⟨some 1⟩)]⟩ : Interner Nat).findEntry 0 = some e2) ∧
    (⟨[(0, ⟨some 1⟩)]⟩ : Interner Nat).len
      ≤ (⟨[(1, ⟨some 6⟩), (0, ⟨some 1⟩)]⟩ : Interner Nat).len :=
  ⟨(c8_no_eviction (fun n => n) [Op.start 1, Op.finish 1 1 5] ⟨[(0, ⟨some 1⟩)]⟩
      ⟨[(1, ⟨some 6⟩), (0, ⟨some 1⟩)]⟩ (by rfl)).1 0 ⟨some 1⟩ (by rfl),
   (c8_no_eviction (fun n => n) [Op.start 1, Op.finish 1 1 5] ⟨[(0, ⟨some 1⟩)]⟩
      ⟨[(1, ⟨some 6⟩), (0, ⟨some 1⟩)]⟩ (by rfl)).2⟩

/-- C1: over any completed sequence of `serialize_interned` calls on one
interner (fresh at the start of the pass), for every value `v`: the delegated
payload serialization for `v` is invoked exactly once if `v` occurs in the
sequence (and never otherwise), that single invocation happens on the first
call with value `v`, and all calls with value `v` that return `Ok` return
the same position.  The hypothesis on `ser` records that the delegated
serialization returns a `usize` position. -/
theorem c1_dedup (hash : T → Nat) (ser : T → W → Except E Nat × W)
    (hser : ∀ u w pos w2, ser u w = (.ok pos, w2) → pos < USIZE_MOD)
    (vs : List T) (v : T) (w0 : W) (tr : List (CallRecord T E)) (sf : SerState T W)
    (hrun : runSerialize hash ser ⟨Interner.new T, w0⟩ vs = some (tr, sf)) :
    delegatedCountFor v tr = (if v ∈ vs then 1 else 0) ∧
    (∀ c, tr.find? (fun c => decide (c.value = v)) = some c → c.delegated = true) ∧
    (∀ p ∈ okPositionsFor v tr, ∀ q ∈ okPositionsFor v tr, p = q) :=
  (runSerialize_invariant hash ser v hser vs ⟨Interner.new T, w0⟩ tr sf hrun).1 (by rfl)

/-- C1 witness: the sequence `[0, 1, 0, 0]` with a delegate that always
writes at position `0`; the value `0` is delegated exactly once, on the
first call, and all three `Ok` results for `0` agree. -/
theorem c1_dedup_witness :
    runSerialize (fun n => n) (fun _ _ => ((Except.ok 0 : Except Unit Nat), ()))
        (⟨Interner.new Nat, ()⟩ : SerState Nat Unit) [0, 1, 0, 0]
      = some ([⟨0, .ok 0, true⟩, ⟨1, .ok 0, true⟩, ⟨0, .ok 0, false⟩,
            ⟨0, .ok 0, false⟩],
          ⟨⟨[(1, ⟨some 1⟩), (0, ⟨some 1⟩)]⟩, ()⟩) ∧
    delegatedCountFor 0
        ([⟨0, .ok 0, true⟩, ⟨1, .ok 0, true⟩, ⟨0, .ok 0, false⟩,
          ⟨0, .ok 0, false⟩] : List (CallRecord Nat Unit))
      = (if 0 ∈ [0, 1, 0, 0] then 1 else 0) ∧
    (∀ c, ([⟨0, .ok 0, true⟩, ⟨1, .ok 0, true⟩, ⟨0, .ok 0, false⟩,
          ⟨0, .ok 0, false⟩] : List (CallRecord Nat Unit)).find?
        (fun c => decide (c.value = 0)) = some c → c.delegated = true) ∧
    (∀ p ∈ okPositionsFor 0
        ([⟨0, .ok 0, true⟩, ⟨1, .ok 0, true⟩, ⟨0, .ok 0, false⟩,
          ⟨0, .ok 0, false⟩] : List (CallRecord Nat Unit)),
      ∀ q ∈ okPositionsFor 0
        ([⟨0, .ok 0, true⟩, ⟨1, .ok 0, true⟩, ⟨0, .ok 0, false⟩,
          ⟨0, .ok 0, false⟩] : List (CallRecord Nat Unit)), p = q) :=
  ⟨by rfl,
   c1_dedup (fun n => n) (fun _ _ => ((Except.ok 0 : Except Unit Nat), ()))
     (fun u w pos w2 h => by
       injection h with h1 h2
       injection h1 with h3
       subst h3
       decide)
     [0, 1, 0, 0] 0 ()
     [⟨0, .ok 0, true⟩, ⟨1, .ok 0, true⟩, ⟨0, .ok 0, false⟩, ⟨0, .ok 0, false⟩]
     ⟨⟨[(1, ⟨some 1⟩), (0, ⟨some 1⟩)]⟩, ()⟩ (by rfl)⟩

end Claims

end RkyvIntern
